import Mathlib

/-!
Verification of the crawlexsses pipeline orchestrator (crawlexsses.py).

The script is a sequential pipeline of external-tool invocations exchanging
line-oriented text files.  We embed it shallowly:

* pure helpers (`read_lines`, `write_lines`, `unique_preserve_order`,
  `chunked`, `merge_histories`, the extension-exclusion regex and the
  structural filter) become executable Lean functions over `List String`;
* the filesystem becomes a map `FS := String → Option (List String)` from
  path to the file's lines;
* each external tool becomes a component of an environment `Env`, a pure
  function from the text piped to (or read by) the tool to its
  `(returncode, stdout lines)`;
* each stage returns its trace of external calls (`List Call`) together with
  `Except String result`, mirroring `RuntimeError` propagation; `time.sleep`
  pacing shows up as `Call.sleepCall` events in the trace.
-/

/-! ## Generic character-list helpers (substring machinery for the regex) -/

/-- `hasPrefixL p s` : the character list `s` starts with `p`. -/
def hasPrefixL : List Char → List Char → Bool
  | [], _ => true
  | _ :: _, [] => false
  | a :: p, b :: s => a == b && hasPrefixL p s

/-- `hasSubL p s` : `p` occurs contiguously somewhere inside `s`. -/
def hasSubL (p : List Char) : List Char → Bool
  | [] => hasPrefixL p []
  | b :: s => hasPrefixL p (b :: s) || hasSubL p s

/-- `hasSuffixL p s` : the character list `s` ends with `p`. -/
def hasSuffixL (p s : List Char) : Bool :=
  hasPrefixL p.reverse s.reverse

theorem hasPrefixL_iff (p s : List Char) :
    hasPrefixL p s = true ↔ ∃ t, s = p ++ t := by
  induction p generalizing s with
  | nil => simp [hasPrefixL]
  | cons a p ih =>
    cases s with
    | nil => simp [hasPrefixL]
    | cons b s =>
      simp only [hasPrefixL, Bool.and_eq_true, beq_iff_eq, ih, List.cons_append,
        List.cons.injEq]
      constructor
      · rintro ⟨rfl, t, rfl⟩; exact ⟨t, rfl, rfl⟩
      · rintro ⟨t, rfl, rfl⟩; exact ⟨rfl, t, rfl⟩

theorem hasSubL_iff (p s : List Char) :
    hasSubL p s = true ↔ ∃ a t, s = a ++ p ++ t := by
  induction s with
  | nil =>
    simp only [hasSubL, hasPrefixL_iff]
    constructor
    · rintro ⟨t, ht⟩
      exact ⟨[], t, by simpa using ht⟩
    · rintro ⟨a, t, ht⟩
      refine ⟨t, ?_⟩
      rcases List.append_eq_nil.mp (List.append_eq_nil.mp ht.symm).1 with ⟨rfl, rfl⟩
      simpa using ht
  | cons b s ih =>
    simp only [hasSubL, Bool.or_eq_true, hasPrefixL_iff, ih]
    constructor
    · rintro (⟨t, ht⟩ | ⟨a, t, ht⟩)
      · exact ⟨[], t, by simpa using ht⟩
      · exact ⟨b :: a, t, by simp [ht]⟩
    · rintro ⟨a, t, ht⟩
      cases a with
      | nil => exact Or.inl ⟨t, by simpa using ht⟩
      | cons x a =>
        right
        refine ⟨a, t, ?_⟩
        have h2 : b :: s = x :: (a ++ p ++ t) := by simpa using ht
        simpa [List.append_assoc] using congrArg List.tail h2

theorem hasSuffixL_iff (p s : List Char) :
    hasSuffixL p s = true ↔ ∃ a, s = a ++ p := by
  unfold hasSuffixL
  rw [hasPrefixL_iff]
  constructor
  · rintro ⟨t, ht⟩
    refine ⟨t.reverse, ?_⟩
    have := congrArg List.reverse ht
    simpa using this
  · rintro ⟨a, rfl⟩
    exact ⟨a.reverse, by simp⟩

/-! ## Python `str.strip` -/

/-- Characters of a string with surrounding whitespace removed, as in
Python's `str.strip()`. -/
def stripChars (cs : List Char) : List Char :=
  ((cs.dropWhile Char.isWhitespace).reverse.dropWhile Char.isWhitespace).reverse

/-- Embedding of Python's `str.strip()`. -/
def pstrip (s : String) : String :=
  ⟨stripChars s.data⟩

/-! ## Filesystem model and line-file utilities (crawlexsses.py lines 94-110) -/

/-- A filesystem maps a path to the lines of the file stored there
(`none` = the path does not exist). -/
def FS : Type := String → Option (List String)

/-- `read_lines` (lines 94-98): a missing file reads as `[]`; otherwise the
lines are stripped and empty lines are dropped. -/
def read_lines (fs : FS) (path : String) : List String :=
  match fs path with
  | none => []
  | some ls => (ls.map pstrip).filter (fun s => s ≠ "")

/-- `write_lines` (lines 101-104): truncating write of a list of lines. -/
def write_lines (fs : FS) (path : String) (lines : List String) : FS :=
  fun p => if p = path then some lines else fs p

/-! ## `unique_preserve_order` (lines 113-120) -/

/-- Loop of `unique_preserve_order`: `seen` collects the elements already
emitted (the Python `set`, modelled by list membership). -/
def upoAux (seen : List String) : List String → List String
  | [] => []
  | x :: xs => if x ∈ seen then upoAux seen xs else x :: upoAux (x :: seen) xs

/-- `unique_preserve_order`: drop every later duplicate, keeping first
occurrences in order. -/
def unique_preserve_order (lines : List String) : List String :=
  upoAux [] lines

/-- Specification-side rendering of "keep exactly the first occurrence of
each distinct element, in first-occurrence order": an element is kept iff it
does not occur among the elements strictly before it (`pre` accumulates the
input prefix already scanned). -/
def firstOccAux (pre : List String) : List String → List String
  | [] => []
  | x :: xs => if x ∈ pre then firstOccAux (pre ++ [x]) xs
               else x :: firstOccAux (pre ++ [x]) xs

/-- The subsequence of first occurrences of a list. -/
def firstOccurrences (l : List String) : List String :=
  firstOccAux [] l

/-! ## `chunked` (lines 123-128) -/

/-- Loop of `chunked` for a positive chunk size, mirroring
`for i in range(0, len(seq), size)`; the first argument of the recursion is
fuel bounded by the list length (the `0, l => [l]` case is unreachable when
the fuel starts at `seq.length`). -/
def chunkGo (size : Nat) : Nat → List String → List (List String)
  | _, [] => []
  | 0, l => [l]
  | fuel + 1, x :: xs => ((x :: xs).take size) :: chunkGo size fuel ((x :: xs).drop size)

/-- `chunked seq size`: one chunk holding everything when `size ≤ 0`,
otherwise successive slices `seq[i : i+size]`. -/
def chunked (seq : List String) (size : Int) : List (List String) :=
  if size ≤ 0 then [seq]
  else chunkGo size.toNat seq.length seq

/-! ## Lexicographic sort used for `sorted(set(lines))` (line 234) -/

/-- Insert a string into an already-sorted list (ascending `<`). -/
def insertSorted (x : String) : List String → List String
  | [] => [x]
  | y :: ys => if y < x then y :: insertSorted x ys else x :: y :: ys

/-- Insertion sort; applied after `unique_preserve_order` it yields the
sorted list of distinct elements, i.e. Python's `sorted(set(lines))`. -/
def sortStr (l : List String) : List String :=
  l.foldr insertSorted []

/-! ## The extension-exclusion regex (lines 216-219) -/

/-- The alternatives of `EXCLUDE_EXT_REGEX`, verbatim from the source. -/
def EXCLUDED_EXTS : List String :=
  ["css", "woff", "woff2", "txt", "js", "m4r", "m4p", "m4b", "ipa", "asa",
   "pkg", "crash", "asf", "asx", "wax", "wmv", "wmx", "avi", "bmp", "class",
   "divx", "doc", "docx", "exe", "gif", "gz", "gzip", "ico", "jpg", "jpeg",
   "jpe", "webp", "json", "mdb", "mid", "midi", "mov", "qt", "mp3", "m4a",
   "mp4", "m4v", "mpeg", "mpg", "mpe", "webm", "mpp", "_otf", "odb", "odc",
   "odf", "odg", "odp", "ods", "odt", "ogg", "pdf", "png", "pot", "pps",
   "ppt", "pptx", "ra", "ram", "svg", "svgz", "swf", "tar", "tif", "tiff",
   "_ttf", "wav", "wma", "wri", "xla", "xls", "xlsx", "xlt", "xlw", "zip"]

/-- One alternative of the regex matched against the (lowered) characters:
`\.ext` followed by end-of-string or by `?`. -/
def extMatchesIn (cs : List Char) (ext : String) : Bool :=
  hasSuffixL ('.' :: ext.data) cs || hasSubL ('.' :: ext.data ++ ['?']) cs

/-- `re.search` of `EXCLUDE_EXT_REGEX` over lowered characters. -/
def excludeSearch (cs : List Char) : Bool :=
  EXCLUDED_EXTS.any (extMatchesIn cs)

/-- Truthiness of `EXCLUDE_EXT_REGEX.search(url)`: some listed extension,
preceded by a dot, occurs at end-of-string or immediately before a `?`,
case-insensitively (`re.IGNORECASE` modelled by lowering the input; the
pattern's own letters are already lower case). -/
def EXCLUDE_EXT_REGEX_search (url : String) : Bool :=
  excludeSearch (url.data.map Char.toLower)

/-- The structural + extension filter of `filter_with_gf_uro_httpx`
(lines 246-248): keep a line iff it contains a literal `=` and the
extension regex does not match it. -/
def structuralFilter (gf_lines : List String) : List String :=
  gf_lines.filter (fun url => url.data.contains '=' && !EXCLUDE_EXT_REGEX_search url)

/-! ## External tools, call traces, stages (lines 131-301) -/

/-- The external tools, each a pure function from the lines piped to (or
read by) the tool to its `(returncode, stdout-or-output-file lines)`. -/
structure Env where
  subfinder : String → Int × List String
  httpx : List String → Int × List String
  waymore : List String → Int × List String
  katana : List String → Int × List String
  gau : List String → Int × List String
  gf : List String → Int × List String
  uro : List String → Int × List String
  knoxnl : List String → Int × List String

/-- Observable events of a run: one external invocation, or one
`time.sleep` (argument = hundredths of a second, so `100` for `0.1` and
`50` for `0.05`). -/
inductive Call where
  | subfinderCall (domain : String)
  | httpxCall (input : List String)
  | waymoreCall (input : List String)
  | katanaCall (input : List String)
  | gauCall (input : List String)
  | gfCall (input : List String)
  | uroCall (input : List String)
  | knoxnlCall (input : List String)
  | sleepCall (ms : Nat)
deriving DecidableEq

/-- Calls belonging to the history-collection stages (waymore/katana/gau). -/
def isHistoryCall : Call → Bool
  | Call.waymoreCall _ => true
  | Call.katanaCall _ => true
  | Call.gauCall _ => true
  | _ => false

/-- The stripped, non-empty subdomain lines of the subfinder output
(line 139-140). -/
def subsOf (env : Env) (domain : String) : List String :=
  ((env.subfinder domain).2.map pstrip).filter (fun s => s ≠ "")

/-- Loop of `subfinder_to_httpx` over the httpx batches (lines 149-164):
abort with `RuntimeError` on a non-zero exit; `time.sleep(0.1)` after each
successful batch when the rate limit is positive; the per-batch stdout is
appended to the subdomains file. -/
def probeBatches (env : Env) (rate : Int) : List (List String) → List Call × Except String (List String)
  | [] => ([], Except.ok [])
  | b :: bs =>
    if (env.httpx b).1 ≠ 0 then
      ([Call.httpxCall b], Except.error "httpx failed while probing subdomains")
    else
      (Call.httpxCall b :: (if rate > 0 then [Call.sleepCall 100] else [])
          ++ (probeBatches env rate bs).1,
        match (probeBatches env rate bs).2 with
        | Except.error e => Except.error e
        | Except.ok rest => Except.ok ((env.httpx b).2 ++ rest))

/-- `subfinder_to_httpx` (lines 131-167). -/
def subfinder_to_httpx (env : Env) (fs : FS) (domain subs_out : String) (rate : Int) :
    List Call × Except String (FS × Nat × Nat) :=
  if (env.subfinder domain).1 ≠ 0 then
    ([Call.subfinderCall domain], Except.error "subfinder failed")
  else
    if subsOf env domain = [] then
      ([Call.subfinderCall domain], Except.ok (write_lines fs subs_out [], 0, 0))
    else
      (Call.subfinderCall domain
          :: (probeBatches env rate (chunked (subsOf env domain)
                (if rate > 0 then rate else ((subsOf env domain).length : Int)))).1,
        match (probeBatches env rate (chunked (subsOf env domain)
                (if rate > 0 then rate else ((subsOf env domain).length : Int)))).2 with
        | Except.error e => Except.error e
        | Except.ok content =>
          Except.ok (write_lines fs subs_out content, (subsOf env domain).length,
            (read_lines (write_lines fs subs_out content) subs_out).length))

/-- `run_waymore` (lines 170-176): the tool reads the subdomains file and
writes its own output file. -/
def run_waymore (env : Env) (fs : FS) (subs_file out_file : String) :
    List Call × Except String (FS × Nat) :=
  let input := read_lines fs subs_file
  if (env.waymore input).1 ≠ 0 then
    ([Call.waymoreCall input], Except.error "waymore failed")
  else
    let fs2 := write_lines fs out_file (env.waymore input).2
    ([Call.waymoreCall input], Except.ok (fs2, (read_lines fs2 out_file).length))

/-- `run_katana` (lines 179-185). -/
def run_katana (env : Env) (fs : FS) (subs_file out_file : String) :
    List Call × Except String (FS × Nat) :=
  let input := read_lines fs subs_file
  if (env.katana input).1 ≠ 0 then
    ([Call.katanaCall input], Except.error "katana failed")
  else
    let fs2 := write_lines fs out_file (env.katana input).2
    ([Call.katanaCall input], Except.ok (fs2, (read_lines fs2 out_file).length))

/-- Loop of `run_gau` over its batches (lines 197-204): unlike the other
loops, the inter-batch sleep is skipped after the last batch
(`i + 1 < len(batches)`). -/
def gauBatches (env : Env) (rate : Int) : List (List String) → List Call × Except String (List String)
  | [] => ([], Except.ok [])
  | b :: bs =>
    if (env.gau b).1 ≠ 0 then
      ([Call.gauCall b], Except.error "gau failed")
    else
      (Call.gauCall b :: (if rate > 0 ∧ bs ≠ [] then [Call.sleepCall 100] else [])
          ++ (gauBatches env rate bs).1,
        match (gauBatches env rate bs).2 with
        | Except.error e => Except.error e
        | Except.ok rest => Except.ok ((env.gau b).2 ++ rest))

/-- `run_gau` (lines 188-205). -/
def run_gau (env : Env) (fs : FS) (subs_file out_file : String) (rate : Int) :
    List Call × Except String (FS × Nat) :=
  if read_lines fs subs_file = [] then
    ([], Except.ok (write_lines fs out_file [], 0))
  else
    ((gauBatches env rate (chunked (read_lines fs subs_file)
        (if rate > 0 then rate else ((read_lines fs subs_file).length : Int)))).1,
      match (gauBatches env rate (chunked (read_lines fs subs_file)
          (if rate > 0 then rate else ((read_lines fs subs_file).length : Int)))).2 with
      | Except.error e => Except.error e
      | Except.ok content =>
        Except.ok (write_lines fs out_file content,
          (read_lines (write_lines fs out_file content) out_file).length))

/-- `merge_histories` (lines 208-213): concatenate the lines of the input
files in order, deduplicate preserving first-seen order, write the result. -/
def merge_histories (fs : FS) (outputs : List String) (merged_out : String) : FS :=
  write_lines fs merged_out
    (unique_preserve_order (outputs.flatMap (fun path => read_lines fs path)))

/-- The `uro` batch loop of `filter_with_gf_uro_httpx` (lines 257-266);
`time.sleep(0.05)` after each batch when the rate limit is positive. -/
def uroBatches (env : Env) (rate : Int) : List (List String) → List Call × Except String (List String)
  | [] => ([], Except.ok [])
  | b :: bs =>
    if (env.uro b).1 ≠ 0 then
      ([Call.uroCall b], Except.error "uro failed")
    else
      (Call.uroCall b :: (if rate > 0 then [Call.sleepCall 50] else [])
          ++ (uroBatches env rate bs).1,
        match (uroBatches env rate bs).2 with
        | Except.error e => Except.error e
        | Except.ok rest => Except.ok ((env.uro b).2 ++ rest))

/-- The final `httpx` batch loop of `filter_with_gf_uro_httpx`
(lines 274-288). -/
def httpxUrlBatches (env : Env) (rate : Int) : List (List String) → List Call × Except String (List String)
  | [] => ([], Except.ok [])
  | b :: bs =>
    if (env.httpx b).1 ≠ 0 then
      ([Call.httpxCall b], Except.error "httpx failed while probing URLs")
    else
      (Call.httpxCall b :: (if rate > 0 then [Call.sleepCall 50] else [])
          ++ (httpxUrlBatches env rate bs).1,
        match (httpxUrlBatches env rate bs).2 with
        | Except.error e => Except.error e
        | Except.ok rest => Except.ok ((env.httpx b).2 ++ rest))

/-- `sorted(set(lines))` of the merged file, the text piped into `gf xss`
(lines 234-238). -/
def gfInput (fs : FS) (merged_in : String) : List String :=
  sortStr (unique_preserve_order (read_lines fs merged_in))

/-- The structural+extension-filtered `gf` output lines (lines 241-248). -/
def filteredOf (env : Env) (fs : FS) (merged_in : String) : List String :=
  structuralFilter (env.gf (gfInput fs merged_in)).2

/-- The `uro` loop result on the filtered lines (lines 256-266). -/
def uroResult (env : Env) (fs : FS) (merged_in : String) (rate : Int) :
    List Call × Except String (List String) :=
  uroBatches env rate (chunked (filteredOf env fs merged_in)
    (if rate > 0 then rate else ((filteredOf env fs merged_in).length : Int)))

/-- Deduplicate and drop blank lines, as applied to the tool output both
after the `uro` loop (line 268) and after the final `httpx` loop (line 290). -/
def normalizedOf (normRaw : List String) : List String :=
  unique_preserve_order (normRaw.filter (fun s => pstrip s ≠ ""))

/-- The final `httpx` loop result on the normalized lines (lines 274-288). -/
def httpxResult (env : Env) (normalized : List String) (rate : Int) :
    List Call × Except String (List String) :=
  httpxUrlBatches env rate (chunked normalized
    (if rate > 0 then rate else (normalized.length : Int)))

/-- `filter_with_gf_uro_httpx` (lines 222-292). -/
def filter_with_gf_uro_httpx (env : Env) (fs : FS) (merged_in final_out : String) (rate : Int) :
    List Call × Except String (FS × Nat × Nat × Nat × Nat) :=
  if read_lines fs merged_in = [] then
    ([], Except.ok (write_lines fs final_out [], 0, 0, 0, 0))
  else
    if (env.gf (gfInput fs merged_in)).1 ≠ 0 then
      ([Call.gfCall (gfInput fs merged_in)], Except.error "gf xss failed")
    else
      if filteredOf env fs merged_in = [] then
        ([Call.gfCall (gfInput fs merged_in)],
          Except.ok (write_lines fs final_out [],
            (env.gf (gfInput fs merged_in)).2.length, 0, 0, 0))
      else
        match (uroResult env fs merged_in rate).2 with
        | Except.error e =>
          (Call.gfCall (gfInput fs merged_in) :: (uroResult env fs merged_in rate).1,
            Except.error e)
        | Except.ok normRaw =>
          if normalizedOf normRaw = [] then
            (Call.gfCall (gfInput fs merged_in) :: (uroResult env fs merged_in rate).1,
              Except.ok (write_lines fs final_out [],
                (env.gf (gfInput fs merged_in)).2.length,
                (filteredOf env fs merged_in).length, 0, 0))
          else
            match (httpxResult env (normalizedOf normRaw) rate).2 with
            | Except.error e =>
              (Call.gfCall (gfInput fs merged_in) :: (uroResult env fs merged_in rate).1
                  ++ (httpxResult env (normalizedOf normRaw) rate).1,
                Except.error e)
            | Except.ok probedRaw =>
              (Call.gfCall (gfInput fs merged_in) :: (uroResult env fs merged_in rate).1
                  ++ (httpxResult env (normalizedOf normRaw) rate).1,
                Except.ok (write_lines fs final_out (normalizedOf probedRaw),
                  (env.gf (gfInput fs merged_in)).2.length,
                  (filteredOf env fs merged_in).length,
                  (normalizedOf normRaw).length, (normalizedOf probedRaw).length))

/-- `run_knoxnl` (lines 295-301). -/
def run_knoxnl (env : Env) (fs : FS) (input_file out_file : String) :
    List Call × Except String (FS × Nat) :=
  let input := read_lines fs input_file
  if (env.knoxnl input).1 ≠ 0 then
    ([Call.knoxnlCall input], Except.error "knoxnl failed")
  else
    let fs2 := write_lines fs out_file (env.knoxnl input).2
    ([Call.knoxnlCall input], Except.ok (fs2, (read_lines fs2 out_file).length))

/-! ## Preflight check and the pipeline driver (`main`, lines 304-417) -/

/-- `ensure_tools_exist` (lines 52-54); `which` tells whether a tool name
resolves on the execution path. -/
def ensure_tools_exist (which : String → Bool) (tools : List String) : Bool × List String :=
  ((tools.filter (fun tool => !(which tool))).isEmpty,
    tools.filter (fun tool => !(which tool)))

/-- The `--mode` CLI choice. -/
inductive Mode where
  | waymore
  | waymoreKatana
  | all
deriving DecidableEq

/-- The required external tools per mode (lines 350-356). -/
def requiredTools (mode : Mode) : List String :=
  ["subfinder", "httpx", "gf", "uro", "knoxnl"] ++ ["waymore"]
    ++ (if mode = Mode.waymore then [] else ["katana"])
    ++ (if mode = Mode.all then ["gau"] else [])

/-- Sequencing with trace accumulation: on error the remaining stages never
run (Python exception propagation). -/
def andThen {α β : Type} (r : List Call × Except String α)
    (f : α → List Call × Except String β) : List Call × Except String β :=
  match r with
  | (tr, Except.error e) => (tr, Except.error e)
  | (tr, Except.ok a) =>
    match f a with
    | (tr2, res) => (tr ++ tr2, res)

/-- Stages 1-5 of `main` (lines 364-408): discovery, history collection
according to mode, merge, filter, knoxnl scan. -/
def pipeline (env : Env) (fs : FS) (domain : String) (mode : Mode) (rate : Int) :
    List Call × Except String FS :=
  andThen (subfinder_to_httpx env fs domain "subs.txt" rate) fun r1 =>
  andThen (run_waymore env r1.1 "subs.txt" "xss-waymore.txt") fun r2 =>
  andThen (if mode = Mode.waymore then ([], Except.ok (r2.1, 0))
           else run_katana env r2.1 "subs.txt" "xss-katana.txt") fun r3 =>
  andThen (if mode = Mode.all then run_gau env r3.1 "subs.txt" "xss-gau.txt" rate
           else ([], Except.ok (r3.1, 0))) fun r4 =>
  let generated := ["xss-waymore.txt"]
      ++ (if mode = Mode.waymore then [] else ["xss-katana.txt"])
      ++ (if mode = Mode.all then ["xss-gau.txt"] else [])
  let fs5 := merge_histories r4.1 generated "xss.txt"
  andThen (filter_with_gf_uro_httpx env fs5 "xss.txt" "xss.txt" rate) fun r6 =>
  andThen (run_knoxnl env r6.1 "xss.txt" "xssoutput.txt") fun r7 =>
  ([], Except.ok r7.1)

/-- Outcome of `main` after argument parsing: either `sys.exit(1)` at the
preflight check (carrying the reported missing-tool list), or the pipeline
runs, producing a trace and an outcome. -/
inductive MainResult where
  | exitMissing (code : Nat) (missing : List String)
  | finished (trace : List Call) (outcome : Except String FS)

/-- `main` (lines 358-408): preflight tool check, then the pipeline. -/
def main_run (which : String → Bool) (env : Env) (fs : FS)
    (domain : String) (mode : Mode) (rate : Int) : MainResult :=
  if (ensure_tools_exist which (requiredTools mode)).1 then
    MainResult.finished (pipeline env fs domain mode rate).1
      (pipeline env fs domain mode rate).2
  else
    MainResult.exitMissing 1 (ensure_tools_exist which (requiredTools mode)).2

/-! ## Lemmas about `unique_preserve_order` -/

theorem mem_upoAux {a : String} (l : List String) :
    ∀ seen, a ∈ upoAux seen l → a ∈ l ∧ a ∉ seen := by
  induction l with
  | nil => intro seen h; simp [upoAux] at h
  | cons x xs ih =>
    intro seen h
    by_cases hx : x ∈ seen
    · rw [upoAux, if_pos hx] at h
      obtain ⟨h1, h2⟩ := ih seen h
      exact ⟨List.mem_cons_of_mem _ h1, h2⟩
    · rw [upoAux, if_neg hx] at h
      rcases List.mem_cons.mp h with rfl | h2
      · exact ⟨List.mem_cons_self _ _, hx⟩
      · obtain ⟨h1, h3⟩ := ih (x :: seen) h2
        exact ⟨List.mem_cons_of_mem _ h1, fun hs => h3 (List.mem_cons_of_mem _ hs)⟩

theorem nodup_upoAux (l : List String) : ∀ seen, (upoAux seen l).Nodup := by
  induction l with
  | nil => intro seen; simp [upoAux]
  | cons x xs ih =>
    intro seen
    by_cases hx : x ∈ seen
    · rw [upoAux, if_pos hx]; exact ih seen
    · rw [upoAux, if_neg hx]
      refine List.nodup_cons.mpr ⟨?_, ih (x :: seen)⟩
      intro hmem
      exact (mem_upoAux xs (x :: seen) hmem).2 (List.mem_cons_self x seen)

theorem upoAux_eq_self (l : List String) :
    ∀ seen, l.Nodup → (∀ a ∈ l, a ∉ seen) → upoAux seen l = l := by
  induction l with
  | nil => intro seen _ _; rfl
  | cons x xs ih =>
    intro seen hn hd
    have hx : x ∉ seen := hd x (List.mem_cons_self _ _)
    rw [upoAux, if_neg hx]
    congr 1
    refine ih (x :: seen) (List.nodup_cons.mp hn).2 ?_
    intro a ha hmem
    rcases List.mem_cons.mp hmem with rfl | h2
    · exact (List.nodup_cons.mp hn).1 ha
    · exact hd a (List.mem_cons_of_mem _ ha) h2

theorem upoAux_sublist (l : List String) : ∀ seen, (upoAux seen l).Sublist l := by
  induction l with
  | nil => intro seen; simp [upoAux]
  | cons x xs ih =>
    intro seen
    by_cases hx : x ∈ seen
    · rw [upoAux, if_pos hx]; exact (ih seen).cons x
    · rw [upoAux, if_neg hx]; exact (ih (x :: seen)).cons₂ x

theorem upoAux_eq_firstOccAux (l : List String) :
    ∀ seen pre, (∀ a, a ∈ seen ↔ a ∈ pre) → upoAux seen l = firstOccAux pre l := by
  induction l with
  | nil => intro seen pre _; rfl
  | cons x xs ih =>
    intro seen pre h
    by_cases hx : x ∈ seen
    · have hxp : x ∈ pre := (h x).mp hx
      rw [upoAux, if_pos hx, firstOccAux, if_pos hxp]
      refine ih seen (pre ++ [x]) ?_
      intro a
      rw [List.mem_append, List.mem_singleton]
      constructor
      · intro ha; exact Or.inl ((h a).mp ha)
      · rintro (ha | rfl)
        · exact (h a).mpr ha
        · exact hx
    · have hxp : x ∉ pre := fun hp => hx ((h x).mpr hp)
      rw [upoAux, if_neg hx, firstOccAux, if_neg hxp]
      congr 1
      refine ih (x :: seen) (pre ++ [x]) ?_
      intro a
      rw [List.mem_cons, List.mem_append, List.mem_singleton]
      constructor
      · rintro (rfl | ha)
        · exact Or.inr rfl
        · exact Or.inl ((h a).mp ha)
      · rintro (ha | rfl)
        · exact Or.inr ((h a).mpr ha)
        · exact Or.inl rfl

/-! ## Lemmas about `chunked` -/

theorem chunkGo_flatten (size : Nat) (hs : 1 ≤ size) :
    ∀ (fuel : Nat) (l : List String), l.length ≤ fuel → (chunkGo size fuel l).flatten = l := by
  intro fuel
  induction fuel with
  | zero =>
    intro l hl
    have : l = [] := List.length_eq_zero.mp (Nat.le_zero.mp hl)
    subst this; rfl
  | succ n ih =>
    intro l hl
    cases l with
    | nil => rfl
    | cons x xs =>
      rw [chunkGo, List.flatten_cons]
      have hlen : ((x :: xs).drop size).length ≤ n := by
        rw [List.length_drop, List.length_cons]
        simp only [List.length_cons] at hl
        omega
      rw [ih ((x :: xs).drop size) hlen]
      exact List.take_append_drop size (x :: xs)

/-! ## Claim theorems -/

/-- Claim C1, counterexample: the URL `https://x.test/a.js?x=b.php` ends in
the extension `.php` — `php` is the maximal dot-free suffix segment and is
not in the exclusion list — yet the predicate excludes the URL, because
`re.search` also fires on `.js?` in the middle of the string.  This refutes
"every URL ending in an unlisted extension or in no extension is not
excluded by this predicate alone". -/
theorem exclude_ext_unlisted_suffix_counterexample :
    EXCLUDE_EXT_REGEX_search "https://x.test/a.js?x=b.php" = true
    ∧ hasSuffixL ('.' :: "php".data) "https://x.test/a.js?x=b.php".data = true
    ∧ ("https://x.test/a.js?x=b.php".data.reverse.takeWhile (fun c => c ≠ '.')).reverse
        = "php".data
    ∧ "php" ∉ EXCLUDED_EXTS := by
  refine ⟨by decide, by decide, by decide, by decide⟩

/-- Claim C1, amended: the extension-exclusion predicate holds on a URL iff,
case-insensitively, some listed extension preceded by a dot occurs at the
end of the string or immediately before a `?` anywhere in the string.  In
particular every URL ending in a listed extension (optionally followed by a
`?query`) is excluded, but a URL ending in an unlisted extension can still
be excluded when a listed extension followed by `?` occurs earlier. -/
theorem exclude_ext_search_characterization (url : String) :
    EXCLUDE_EXT_REGEX_search url = true ↔
      ∃ ext ∈ EXCLUDED_EXTS, ∃ a b,
        url.data.map Char.toLower = a ++ '.' :: ext.data ++ b
        ∧ (b = [] ∨ ∃ b2, b = '?' :: b2) := by
  unfold EXCLUDE_EXT_REGEX_search excludeSearch extMatchesIn
  rw [List.any_eq_true]
  constructor
  · rintro ⟨ext, hmem, hm⟩
    rcases Bool.or_eq_true _ _ |>.mp hm with hsuf | hsub
    · rcases (hasSuffixL_iff _ _).mp hsuf with ⟨a, ha⟩
      exact ⟨ext, hmem, a, [], by simpa using ha, Or.inl rfl⟩
    · rcases (hasSubL_iff _ _).mp hsub with ⟨a, t, ha⟩
      refine ⟨ext, hmem, a, '?' :: t, ?_, Or.inr ⟨t, rfl⟩⟩
      simpa [List.append_assoc] using ha
  · rintro ⟨ext, hmem, a, b, hab, hb⟩
    refine ⟨ext, hmem, ?_⟩
    rcases hb with rfl | ⟨b2, rfl⟩
    · exact Bool.or_eq_true _ _ |>.mpr
        (Or.inl ((hasSuffixL_iff _ _).mpr ⟨a, by simpa using hab⟩))
    · exact Bool.or_eq_true _ _ |>.mpr
        (Or.inr ((hasSubL_iff _ _).mpr ⟨a, b2, by simpa [List.append_assoc] using hab⟩))

/-- Claim C2: a line of the pattern-matcher output is retained by the
structural+extension filter step of `filter_with_gf_uro_httpx` iff it
contains a literal `=` and the extension-exclusion predicate does not match
it; on the three example URLs only `https://x.test/a?x=1` survives. -/
theorem structural_filter_retains_iff :
    (∀ (gf_lines : List String) (u : String),
        u ∈ structuralFilter gf_lines ↔
          u ∈ gf_lines ∧ '=' ∈ u.data ∧ EXCLUDE_EXT_REGEX_search u = false)
    ∧ structuralFilter
        ["https://x.test/a?x=1", "https://x.test/app.js?x=1", "https://x.test/a"]
      = ["https://x.test/a?x=1"] := by
  constructor
  · intro gf_lines u
    rw [structuralFilter, List.mem_filter]
    simp [Bool.and_eq_true, Bool.not_eq_true', List.elem_iff]
  · decide

/-- Claim C3: `unique_preserve_order` is idempotent, its output is a
subsequence of the input, and it equals the subsequence keeping exactly the
first occurrence of each distinct element in first-occurrence order. -/
theorem unique_preserve_order_spec (l : List String) :
    unique_preserve_order (unique_preserve_order l) = unique_preserve_order l
    ∧ (unique_preserve_order l).Sublist l
    ∧ unique_preserve_order l = firstOccurrences l := by
  refine ⟨?_, upoAux_sublist l [], upoAux_eq_firstOccAux l [] [] (fun a => Iff.rfl)⟩
  exact upoAux_eq_self (unique_preserve_order l) [] (nodup_upoAux l [])
    (fun a _ h => List.not_mem_nil a h)

/-- Claim C4: for every chunk size ≥ 1, concatenating the chunks of
`chunked` in order reconstructs the input; for every size ≤ 0, `chunked`
yields exactly one chunk equal to the whole input. -/
theorem chunked_spec :
    (∀ (seq : List String) (size : Int), 1 ≤ size → (chunked seq size).flatten = seq)
    ∧ (∀ (seq : List String) (size : Int), size ≤ 0 → chunked seq size = [seq]) := by
  constructor
  · intro seq size h1
    rw [chunked, if_neg (by omega)]
    exact chunkGo_flatten size.toNat (by omega) seq.length seq (le_refl _)
  · intro seq size h
    rw [chunked, if_pos h]

/-- Witness for C4 at concrete inputs. -/
theorem chunked_spec_witness :
    (chunked ["a", "b", "c"] 2).flatten = ["a", "b", "c"]
    ∧ chunked ["a", "b", "c"] (-1) = [["a", "b", "c"]] :=
  ⟨chunked_spec.1 ["a", "b", "c"] 2 (by decide),
   chunked_spec.2 ["a", "b", "c"] (-1) (by decide)⟩

/-! ## Lemmas about `pstrip` -/

theorem dropWhile_shape (p : Char → Bool) (l : List Char) :
    l.dropWhile p = [] ∨ ∃ x t, l.dropWhile p = x :: t ∧ p x = false := by
  induction l with
  | nil => exact Or.inl rfl
  | cons a l ih =>
    rw [List.dropWhile_cons]
    by_cases h : p a = true
    · rw [if_pos h]; exact ih
    · rw [if_neg h]; exact Or.inr ⟨a, l, rfl, by simpa using h⟩

theorem dropWhile_self_of_false {p : Char → Bool} {l : List Char}
    (h : l = [] ∨ ∃ x t, l = x :: t ∧ p x = false) : l.dropWhile p = l := by
  rcases h with rfl | ⟨x, t, rfl, hx⟩
  · rfl
  · rw [List.dropWhile_cons, if_neg (by simp [hx])]

theorem dropWhile_idem_char (p : Char → Bool) (l : List Char) :
    (l.dropWhile p).dropWhile p = l.dropWhile p := by
  apply dropWhile_self_of_false
  exact dropWhile_shape p l

theorem getLast?_dropWhile (p : Char → Bool) (l : List Char) (h : l.dropWhile p ≠ []) :
    (l.dropWhile p).getLast? = l.getLast? := by
  induction l with
  | nil => simp at h
  | cons a l ih =>
    rw [List.dropWhile_cons] at h ⊢
    by_cases hp : p a = true
    · rw [if_pos hp] at h ⊢
      cases l with
      | nil => simp [List.dropWhile] at h
      | cons b l2 => rw [ih h, List.getLast?_cons_cons]
    · rw [if_neg hp]

theorem stripChars_idem (cs : List Char) : stripChars (stripChars cs) = stripChars cs := by
  unfold stripChars
  rcases dropWhile_shape Char.isWhitespace cs with hA | ⟨x, t, hA, hx⟩
  · rw [hA]; rfl
  · rw [hA]
    have hBne : (x :: t).reverse.dropWhile Char.isWhitespace ≠ [] := by
      intro hnil
      rw [List.dropWhile_eq_nil_iff] at hnil
      have := hnil x (by simp)
      simp [hx] at this
    have hlast : ((x :: t).reverse.dropWhile Char.isWhitespace).getLast? = some x := by
      rw [getLast?_dropWhile _ _ hBne, List.getLast?_reverse]
      rfl
    have hhead : ((x :: t).reverse.dropWhile Char.isWhitespace).reverse.head? = some x := by
      rw [List.head?_reverse, hlast]
    obtain ⟨ys, hys⟩ :
        ∃ ys, ((x :: t).reverse.dropWhile Char.isWhitespace).reverse = x :: ys := by
      cases hr : ((x :: t).reverse.dropWhile Char.isWhitespace).reverse with
      | nil => rw [hr] at hhead; simp at hhead
      | cons y ys =>
        rw [hr] at hhead
        simp only [List.head?_cons, Option.some.injEq] at hhead
        exact ⟨ys, by rw [hhead]⟩
    have h1 : ((x :: t).reverse.dropWhile Char.isWhitespace).reverse.dropWhile
        Char.isWhitespace = ((x :: t).reverse.dropWhile Char.isWhitespace).reverse := by
      rw [hys, List.dropWhile_cons, if_neg (by simp [hx])]
    rw [h1, List.reverse_reverse, dropWhile_idem_char]

theorem pstrip_idem (s : String) : pstrip (pstrip s) = pstrip s :=
  congrArg String.mk (stripChars_idem s.data)

/-! ## Claims C5 and C6 -/

/-- A concrete two-file filesystem used as a witness: file `A` holds
`[u1, u2, u1]`, file `B` holds `[u3, u2]`, and nothing else exists. -/
def fsAB : FS := fun p =>
  if p = "A" then some ["u1", "u2", "u1"]
  else if p = "B" then some ["u3", "u2"] else none

/-- Claim C5: `merge_histories` reads the input files in list order,
concatenates, deduplicates preserving first-seen order, and writes the
result; a file absent from the filesystem contributes zero lines (removing
it from the input list changes nothing); merging `A = [u1, u2, u1]` with
`B = [u3, u2]` writes `[u1, u2, u3]`. -/
theorem merge_histories_spec :
    (∀ (fs : FS) (out p : String) (pre post : List String), fs p = none →
        merge_histories fs (pre ++ p :: post) out = merge_histories fs (pre ++ post) out)
    ∧ merge_histories fsAB ["A", "B"] "M" "M" = some ["u1", "u2", "u3"] := by
  constructor
  · intro fs out p pre post h
    have hrd : read_lines fs p = [] := by rw [read_lines, h]
    unfold merge_histories
    rw [List.flatMap_append, List.flatMap_cons, hrd, List.nil_append, ← List.flatMap_append]
  · decide

/-- Witness for C5's absent-file hypothesis at concrete inputs: `C` does
not exist in `fsAB`, so merging `[A, C, B]` equals merging `[A, B]`. -/
theorem merge_histories_spec_witness :
    merge_histories fsAB ["A", "C", "B"] "M" = merge_histories fsAB ["A", "B"] "M" :=
  merge_histories_spec.1 fsAB "M" "C" ["A"] ["B"] rfl

/-- Claim C6: `read_lines` yields the file's lines in order, stripped, with
empty lines dropped; a non-existent path yields `[]` instead of an error;
every returned line is strip-fixed and non-empty. -/
theorem read_lines_spec :
    (∀ (fs : FS) (p : String), fs p = none → read_lines fs p = [])
    ∧ (∀ (fs : FS) (p : String) (ls : List String), fs p = some ls →
        read_lines fs p = (ls.map pstrip).filter (fun s => s ≠ ""))
    ∧ (∀ (fs : FS) (p s : String), s ∈ read_lines fs p → pstrip s = s ∧ s ≠ "") := by
  refine ⟨?_, ?_, ?_⟩
  · intro fs p h; rw [read_lines, h]
  · intro fs p ls h; rw [read_lines, h]
  · intro fs p s hs
    rw [read_lines] at hs
    cases hfp : fs p with
    | none => rw [hfp] at hs; simp at hs
    | some ls =>
      rw [hfp] at hs
      obtain ⟨hmap, hne⟩ := List.mem_filter.mp hs
      obtain ⟨t, _, rfl⟩ := List.mem_map.mp hmap
      exact ⟨pstrip_idem t, by simpa using hne⟩

/-- Witness for C6 at concrete inputs: path `Z` does not exist in `fsAB`
and reads as `[]`; path `A` reads as its stripped non-empty lines. -/
theorem read_lines_spec_witness :
    read_lines fsAB "Z" = []
    ∧ read_lines fsAB "A" = (["u1", "u2", "u1"].map pstrip).filter (fun s => s ≠ "") :=
  ⟨read_lines_spec.1 fsAB "Z" rfl, read_lines_spec.2.1 fsAB "A" ["u1", "u2", "u1"] rfl⟩

/-! ## Lemmas about the discovery stage and the pipeline -/

theorem probeBatches_calls (env : Env) (rate : Int) (bs : List (List String)) :
    ∀ c ∈ (probeBatches env rate bs).1, isHistoryCall c = false := by
  induction bs with
  | nil => intro c hc; simp [probeBatches] at hc
  | cons b bs ih =>
    intro c hc
    rw [probeBatches] at hc
    by_cases hb : (env.httpx b).1 ≠ 0
    · rw [if_pos hb] at hc
      simp at hc
      subst hc; rfl
    · rw [if_neg hb] at hc
      simp only [List.mem_append, List.mem_cons] at hc
      rcases hc with (rfl | hc) | hc
      · rfl
      · by_cases hr : rate > 0
        · rw [if_pos hr] at hc; simp at hc; subst hc; rfl
        · rw [if_neg hr] at hc; simp at hc
      · exact ih c hc

theorem probeBatches_err (env : Env) (rate : Int) (bs : List (List String))
    (h : ∃ b ∈ bs, (env.httpx b).1 ≠ 0) :
    (probeBatches env rate bs).2 = Except.error "httpx failed while probing subdomains" := by
  induction bs with
  | nil => simp at h
  | cons b bs ih =>
    rw [probeBatches]
    by_cases hb : (env.httpx b).1 ≠ 0
    · rw [if_pos hb]
    · rw [if_neg hb]
      obtain ⟨c, hc, hcne⟩ := h
      have hcbs : c ∈ bs := by
        rcases List.mem_cons.mp hc with rfl | h2
        · exact absurd hcne hb
        · exact h2
      have hrec := ih ⟨c, hcbs, hcne⟩
      simp only [hrec]

theorem subfinder_to_httpx_err (env : Env) (fs : FS) (domain subs_out : String) (rate : Int)
    (h0 : (env.subfinder domain).1 = 0) (hne : subsOf env domain ≠ [])
    (hbad : ∃ b ∈ chunked (subsOf env domain)
        (if rate > 0 then rate else ((subsOf env domain).length : Int)),
        (env.httpx b).1 ≠ 0) :
    (subfinder_to_httpx env fs domain subs_out rate).2
      = Except.error "httpx failed while probing subdomains" := by
  simp only [subfinder_to_httpx, if_neg (not_ne_iff.mpr h0), if_neg hne]
  simp only [probeBatches_err env rate _ hbad]

theorem subfinder_to_httpx_calls (env : Env) (fs : FS) (domain subs_out : String)
    (rate : Int) :
    ∀ c ∈ (subfinder_to_httpx env fs domain subs_out rate).1, isHistoryCall c = false := by
  intro c hc
  simp only [subfinder_to_httpx] at hc
  by_cases h1 : (env.subfinder domain).1 ≠ 0
  · rw [if_pos h1] at hc; simp at hc; subst hc; rfl
  · rw [if_neg h1] at hc
    by_cases h2 : subsOf env domain = []
    · rw [if_pos h2] at hc; simp at hc; subst hc; rfl
    · rw [if_neg h2] at hc
      simp only [List.mem_cons] at hc
      rcases hc with rfl | hc
      · rfl
      · exact probeBatches_calls env rate _ c hc

theorem andThen_err {α β : Type} (r : List Call × Except String α) (e : String)
    (f : α → List Call × Except String β) (h : r.2 = Except.error e) :
    andThen r f = (r.1, Except.error e) := by
  rcases r with ⟨tr, res⟩
  cases res with
  | error e2 =>
    obtain rfl : e2 = e := by simpa using h
    rfl
  | ok a => simp at h

/-- Claim C7: when `subfinder` succeeds with a non-empty subdomain list and
`httpx` exits non-zero on some batch, `subfinder_to_httpx` raises the fatal
`httpx` error, the pipeline result is that error, and the pipeline's call
trace contains no history-collection call (waymore, katana, or gau). -/
theorem httpx_failure_aborts_before_history (env : Env) (fs : FS) (domain : String)
    (mode : Mode) (rate : Int)
    (h0 : (env.subfinder domain).1 = 0) (hne : subsOf env domain ≠ [])
    (hbad : ∃ b ∈ chunked (subsOf env domain)
        (if rate > 0 then rate else ((subsOf env domain).length : Int)),
        (env.httpx b).1 ≠ 0) :
    (subfinder_to_httpx env fs domain "subs.txt" rate).2
        = Except.error "httpx failed while probing subdomains"
    ∧ (pipeline env fs domain mode rate).2
        = Except.error "httpx failed while probing subdomains"
    ∧ ∀ c ∈ (pipeline env fs domain mode rate).1, isHistoryCall c = false := by
  have herr := subfinder_to_httpx_err env fs domain "subs.txt" rate h0 hne hbad
  have hpipe : pipeline env fs domain mode rate
      = ((subfinder_to_httpx env fs domain "subs.txt" rate).1,
         Except.error "httpx failed while probing subdomains") := by
    unfold pipeline
    exact andThen_err _ _ _ herr
  refine ⟨herr, ?_, ?_⟩
  · rw [hpipe]
  · rw [hpipe]
    intro c hc
    exact subfinder_to_httpx_calls env fs domain "subs.txt" rate c hc

/-- The empty filesystem. -/
def fsNone : FS := fun _ => none

/-- Concrete environment: `subfinder` finds one subdomain, `httpx` always
exits with status 1, every other tool succeeds with empty output. -/
def envFailHttpx : Env :=
  { subfinder := fun _ => (0, ["a.example.com"])
    httpx := fun _ => (1, [])
    waymore := fun _ => (0, [])
    katana := fun _ => (0, [])
    gau := fun _ => (0, [])
    gf := fun _ => (0, [])
    uro := fun _ => (0, [])
    knoxnl := fun _ => (0, []) }

/-- Witness for C7 at a concrete environment where `httpx` fails. -/
theorem httpx_failure_witness :
    (pipeline envFailHttpx fsNone "example.com" Mode.all 0).2
        = Except.error "httpx failed while probing subdomains"
    ∧ ∀ c ∈ (pipeline envFailHttpx fsNone "example.com" Mode.all 0).1,
        isHistoryCall c = false := by
  have h := httpx_failure_aborts_before_history envFailHttpx fsNone "example.com" Mode.all 0
    (by decide) (by decide) ⟨["a.example.com"], by decide, by decide⟩
  exact ⟨h.2.1, h.2.2⟩

/-- Claim C9: when `subfinder` succeeds but its output has no non-empty
line, `subfinder_to_httpx` writes an empty subdomains file, returns the
counts `(0, 0)`, and its trace contains no `httpx` invocation. -/
theorem subfinder_empty_short_circuit (env : Env) (fs : FS) (domain subs_out : String)
    (rate : Int) (h0 : (env.subfinder domain).1 = 0) (hempty : subsOf env domain = []) :
    subfinder_to_httpx env fs domain subs_out rate
      = ([Call.subfinderCall domain], Except.ok (write_lines fs subs_out [], 0, 0))
    ∧ ∀ c ∈ (subfinder_to_httpx env fs domain subs_out rate).1,
        ∀ b, c ≠ Call.httpxCall b := by
  have heq : subfinder_to_httpx env fs domain subs_out rate
      = ([Call.subfinderCall domain], Except.ok (write_lines fs subs_out [], 0, 0)) := by
    simp only [subfinder_to_httpx, if_neg (not_ne_iff.mpr h0), if_pos hempty]
  refine ⟨heq, ?_⟩
  rw [heq]
  intro c hc b
  simp at hc
  subst hc
  exact fun hx => Call.noConfusion hx

/-- Concrete environment whose `subfinder` output is all blank lines. -/
def envEmptySubs : Env :=
  { subfinder := fun _ => (0, ["", "   "])
    httpx := fun _ => (1, [])
    waymore := fun _ => (0, [])
    katana := fun _ => (0, [])
    gau := fun _ => (0, [])
    gf := fun _ => (0, [])
    uro := fun _ => (0, [])
    knoxnl := fun _ => (0, []) }

/-- Witness for C9 at a concrete environment with blank subfinder output. -/
theorem subfinder_empty_witness :
    subfinder_to_httpx envEmptySubs fsNone "d" "subs.txt" 5
      = ([Call.subfinderCall "d"], Except.ok (write_lines fsNone "subs.txt" [], 0, 0)) :=
  (subfinder_empty_short_circuit envEmptySubs fsNone "d" "subs.txt" 5
    (by decide) (by decide)).1

/-- Claim C8: `ensure_tools_exist` succeeds exactly when its missing-names
list is empty, and when some required tool for the selected mode is
unresolvable, `main` exits with code 1 reporting the full missing list
(no pipeline stage result exists in that case). -/
theorem missing_tools_exit :
    (∀ (which : String → Bool) (tools : List String),
        (ensure_tools_exist which tools).1 = true ↔ (ensure_tools_exist which tools).2 = [])
    ∧ (∀ (which : String → Bool) (env : Env) (fs : FS) (domain : String) (mode : Mode)
        (rate : Int), (requiredTools mode).filter (fun tool => !(which tool)) ≠ [] →
        main_run which env fs domain mode rate
          = MainResult.exitMissing 1
              ((requiredTools mode).filter (fun tool => !(which tool)))) := by
  constructor
  · intro which tools
    rw [ensure_tools_exist]
    exact List.isEmpty_iff
  · intro which env fs domain mode rate h
    have hne : ¬((ensure_tools_exist which (requiredTools mode)).1 = true) := by
      rw [ensure_tools_exist]
      simpa [List.isEmpty_iff] using h
    rw [main_run, if_neg hne]
    rfl

/-- A path resolver on which no tool exists. -/
def whichNone : String → Bool := fun _ => false

/-- Witness for C8: with no tool resolvable and mode `all`, `main` exits
with code 1 reporting all eight required tools. -/
theorem missing_tools_exit_witness :
    main_run whichNone envFailHttpx fsNone "example.com" Mode.all 0
      = MainResult.exitMissing 1
          ["subfinder", "httpx", "gf", "uro", "knoxnl", "waymore", "katana", "gau"] := by
  have h := missing_tools_exit.2 whichNone envFailHttpx fsNone "example.com" Mode.all 0
    (by decide)
  rw [h]
  rfl

/-! ## Lemmas for non-positive rate limits -/

theorem probeBatches_rate_nonpos (env : Env) (rate : Int) (h : ¬ rate > 0)
    (bs : List (List String)) : probeBatches env rate bs = probeBatches env 0 bs := by
  induction bs with
  | nil => rfl
  | cons b bs ih =>
    simp only [probeBatches, if_neg h, if_neg (show ¬(0 : Int) > 0 by decide), ih]

theorem gauBatches_rate_nonpos (env : Env) (rate : Int) (h : ¬ rate > 0)
    (bs : List (List String)) : gauBatches env rate bs = gauBatches env 0 bs := by
  induction bs with
  | nil => rfl
  | cons b bs ih =>
    have hc1 : ¬(rate > 0 ∧ bs ≠ []) := fun hx => h hx.1
    have hc2 : ¬((0 : Int) > 0 ∧ bs ≠ []) := fun hx => absurd hx.1 (by decide)
    simp only [gauBatches, if_neg hc1, if_neg hc2, ih]

theorem uroBatches_rate_nonpos (env : Env) (rate : Int) (h : ¬ rate > 0)
    (bs : List (List String)) : uroBatches env rate bs = uroBatches env 0 bs := by
  induction bs with
  | nil => rfl
  | cons b bs ih =>
    simp only [uroBatches, if_neg h, if_neg (show ¬(0 : Int) > 0 by decide), ih]

theorem httpxUrlBatches_rate_nonpos (env : Env) (rate : Int) (h : ¬ rate > 0)
    (bs : List (List String)) : httpxUrlBatches env rate bs = httpxUrlBatches env 0 bs := by
  induction bs with
  | nil => rfl
  | cons b bs ih =>
    simp only [httpxUrlBatches, if_neg h, if_neg (show ¬(0 : Int) > 0 by decide), ih]

theorem probeBatches_no_sleep (env : Env) (rate : Int) (h : ¬ rate > 0)
    (bs : List (List String)) :
    ∀ c ∈ (probeBatches env rate bs).1, ∀ n, c ≠ Call.sleepCall n := by
  induction bs with
  | nil => intro c hc; simp [probeBatches] at hc
  | cons b bs ih =>
    intro c hc n
    rw [probeBatches] at hc
    by_cases hb : (env.httpx b).1 ≠ 0
    · rw [if_pos hb] at hc
      simp at hc; subst hc
      exact fun hx => Call.noConfusion hx
    · rw [if_neg hb, if_neg h] at hc
      simp only [List.cons_append, List.nil_append, List.mem_cons] at hc
      rcases hc with rfl | hc
      · exact fun hx => Call.noConfusion hx
      · exact ih c hc n

theorem gauBatches_no_sleep (env : Env) (rate : Int) (h : ¬ rate > 0)
    (bs : List (List String)) :
    ∀ c ∈ (gauBatches env rate bs).1, ∀ n, c ≠ Call.sleepCall n := by
  induction bs with
  | nil => intro c hc; simp [gauBatches] at hc
  | cons b bs ih =>
    intro c hc n
    rw [gauBatches] at hc
    by_cases hb : (env.gau b).1 ≠ 0
    · rw [if_pos hb] at hc
      simp at hc; subst hc
      exact fun hx => Call.noConfusion hx
    · rw [if_neg hb, if_neg (show ¬(rate > 0 ∧ bs ≠ []) from fun hx => h hx.1)] at hc
      simp only [List.cons_append, List.nil_append, List.mem_cons] at hc
      rcases hc with rfl | hc
      · exact fun hx => Call.noConfusion hx
      · exact ih c hc n

theorem uroBatches_no_sleep (env : Env) (rate : Int) (h : ¬ rate > 0)
    (bs : List (List String)) :
    ∀ c ∈ (uroBatches env rate bs).1, ∀ n, c ≠ Call.sleepCall n := by
  induction bs with
  | nil => intro c hc; simp [uroBatches] at hc
  | cons b bs ih =>
    intro c hc n
    rw [uroBatches] at hc
    by_cases hb : (env.uro b).1 ≠ 0
    · rw [if_pos hb] at hc
      simp at hc; subst hc
      exact fun hx => Call.noConfusion hx
    · rw [if_neg hb, if_neg h] at hc
      simp only [List.cons_append, List.nil_append, List.mem_cons] at hc
      rcases hc with rfl | hc
      · exact fun hx => Call.noConfusion hx
      · exact ih c hc n

theorem httpxUrlBatches_no_sleep (env : Env) (rate : Int) (h : ¬ rate > 0)
    (bs : List (List String)) :
    ∀ c ∈ (httpxUrlBatches env rate bs).1, ∀ n, c ≠ Call.sleepCall n := by
  induction bs with
  | nil => intro c hc; simp [httpxUrlBatches] at hc
  | cons b bs ih =>
    intro c hc n
    rw [httpxUrlBatches] at hc
    by_cases hb : (env.httpx b).1 ≠ 0
    · rw [if_pos hb] at hc
      simp at hc; subst hc
      exact fun hx => Call.noConfusion hx
    · rw [if_neg hb, if_neg h] at hc
      simp only [List.cons_append, List.nil_append, List.mem_cons] at hc
      rcases hc with rfl | hc
      · exact fun hx => Call.noConfusion hx
      · exact ih c hc n

theorem subfinder_to_httpx_no_sleep (env : Env) (fs : FS) (domain subs_out : String)
    (rate : Int) (h : ¬ rate > 0) :
    ∀ c ∈ (subfinder_to_httpx env fs domain subs_out rate).1,
      ∀ n, c ≠ Call.sleepCall n := by
  intro c hc n
  simp only [subfinder_to_httpx] at hc
  by_cases h1 : (env.subfinder domain).1 ≠ 0
  · rw [if_pos h1] at hc; simp at hc; subst hc
    exact fun hx => Call.noConfusion hx
  · rw [if_neg h1] at hc
    by_cases h2 : subsOf env domain = []
    · rw [if_pos h2] at hc; simp at hc; subst hc
      exact fun hx => Call.noConfusion hx
    · rw [if_neg h2] at hc
      simp only [List.mem_cons] at hc
      rcases hc with rfl | hc
      · exact fun hx => Call.noConfusion hx
      · exact probeBatches_no_sleep env rate h _ c hc n

theorem run_gau_no_sleep (env : Env) (fs : FS) (subs_file out_file : String)
    (rate : Int) (h : ¬ rate > 0) :
    ∀ c ∈ (run_gau env fs subs_file out_file rate).1, ∀ n, c ≠ Call.sleepCall n := by
  intro c hc n
  simp only [run_gau] at hc
  by_cases h1 : read_lines fs subs_file = []
  · rw [if_pos h1] at hc; simp at hc
  · rw [if_neg h1] at hc
    exact gauBatches_no_sleep env rate h _ c hc n

theorem filter_no_sleep (env : Env) (fs : FS) (merged_in final_out : String)
    (rate : Int) (h : ¬ rate > 0) :
    ∀ c ∈ (filter_with_gf_uro_httpx env fs merged_in final_out rate).1,
      ∀ n, c ≠ Call.sleepCall n := by
  intro c hc n
  simp only [filter_with_gf_uro_httpx] at hc
  by_cases h1 : read_lines fs merged_in = []
  · rw [if_pos h1] at hc; simp at hc
  · rw [if_neg h1] at hc
    by_cases h2 : (env.gf (gfInput fs merged_in)).1 ≠ 0
    · rw [if_pos h2] at hc; simp at hc; subst hc
      exact fun hx => Call.noConfusion hx
    · rw [if_neg h2] at hc
      by_cases h3 : filteredOf env fs merged_in = []
      · rw [if_pos h3] at hc; simp at hc; subst hc
        exact fun hx => Call.noConfusion hx
      · rw [if_neg h3] at hc
        cases hu : (uroResult env fs merged_in rate).2 with
        | error e =>
          rw [hu] at hc
          simp only [List.mem_cons] at hc
          rcases hc with rfl | hc
          · exact fun hx => Call.noConfusion hx
          · exact uroBatches_no_sleep env rate h _ c hc n
        | ok normRaw =>
          rw [hu] at hc
          simp only [] at hc
          by_cases h4 : normalizedOf normRaw = []
          · rw [if_pos h4] at hc
            simp only [List.mem_cons] at hc
            rcases hc with rfl | hc
            · exact fun hx => Call.noConfusion hx
            · exact uroBatches_no_sleep env rate h _ c hc n
          · rw [if_neg h4] at hc
            cases hh : (httpxResult env (normalizedOf normRaw) rate).2 with
            | error e =>
              rw [hh] at hc
              simp only [List.mem_append, List.mem_cons] at hc
              rcases hc with (rfl | hc) | hc
              · exact fun hx => Call.noConfusion hx
              · exact uroBatches_no_sleep env rate h _ c hc n
              · exact httpxUrlBatches_no_sleep env rate h _ c hc n
            | ok probedRaw =>
              rw [hh] at hc
              simp only [List.mem_append, List.mem_cons] at hc
              rcases hc with (rfl | hc) | hc
              · exact fun hx => Call.noConfusion hx
              · exact uroBatches_no_sleep env rate h _ c hc n
              · exact httpxUrlBatches_no_sleep env rate h _ c hc n

theorem subfinder_to_httpx_rate_nonpos (env : Env) (fs : FS) (domain subs_out : String)
    (rate : Int) (h : ¬ rate > 0) :
    subfinder_to_httpx env fs domain subs_out rate
      = subfinder_to_httpx env fs domain subs_out 0 := by
  simp only [subfinder_to_httpx, if_neg h, if_neg (show ¬(0 : Int) > 0 by decide),
    probeBatches_rate_nonpos env rate h]

theorem run_gau_rate_nonpos (env : Env) (fs : FS) (subs_file out_file : String)
    (rate : Int) (h : ¬ rate > 0) :
    run_gau env fs subs_file out_file rate = run_gau env fs subs_file out_file 0 := by
  simp only [run_gau, if_neg h, if_neg (show ¬(0 : Int) > 0 by decide),
    gauBatches_rate_nonpos env rate h]

theorem filter_rate_nonpos (env : Env) (fs : FS) (merged_in final_out : String)
    (rate : Int) (h : ¬ rate > 0) :
    filter_with_gf_uro_httpx env fs merged_in final_out rate
      = filter_with_gf_uro_httpx env fs merged_in final_out 0 := by
  simp only [filter_with_gf_uro_httpx, uroResult, httpxResult, if_neg h,
    if_neg (show ¬(0 : Int) > 0 by decide), uroBatches_rate_nonpos env rate h,
    httpxUrlBatches_rate_nonpos env rate h]

theorem chunked_length_single (seq : List String) (h : seq ≠ []) :
    chunked seq ((seq.length : Nat) : Int) = [seq] := by
  cases seq with
  | nil => exact absurd rfl h
  | cons x xs =>
    have hlen : ¬(((x :: xs).length : Nat) : Int) ≤ 0 := by
      simp only [List.length_cons]
      omega
    rw [chunked, if_neg hlen]
    have htn : ((((x :: xs).length : Nat) : Int)).toNat = (x :: xs).length :=
      Int.toNat_natCast _
    rw [htn]
    simp only [List.length_cons]
    rw [chunkGo]
    rw [List.take_of_length_le (by simp), List.drop_eq_nil_of_le (by simp)]
    cases xs.length with
    | zero => rfl
    | succ n => rfl

/-- Claim C10: every rate-limit value ≤ 0 (the CLI accepts negatives)
behaves exactly like rate-limit 0 at every batching site: `chunked`
produces a single chunk on non-positive sizes, each batching site passes
the whole input as one batch (`chunked` at the input's length is a single
chunk), `subfinder_to_httpx`, `run_gau` and `filter_with_gf_uro_httpx`
(with both of its batching loops) are unchanged from rate 0, and none of
their traces contains a sleep event. -/
theorem nonpos_rate_equiv_zero (rate : Int) (h : rate ≤ 0) :
    (∀ seq : List String, chunked seq rate = [seq])
    ∧ (∀ seq : List String, seq ≠ [] → chunked seq ((seq.length : Nat) : Int) = [seq])
    ∧ (∀ (env : Env) (fs : FS) (domain subs_out : String),
        subfinder_to_httpx env fs domain subs_out rate
          = subfinder_to_httpx env fs domain subs_out 0)
    ∧ (∀ (env : Env) (fs : FS) (subs_file out_file : String),
        run_gau env fs subs_file out_file rate = run_gau env fs subs_file out_file 0)
    ∧ (∀ (env : Env) (fs : FS) (merged_in final_out : String),
        filter_with_gf_uro_httpx env fs merged_in final_out rate
          = filter_with_gf_uro_httpx env fs merged_in final_out 0)
    ∧ (∀ (env : Env) (fs : FS) (domain subs_out : String),
        ∀ c ∈ (subfinder_to_httpx env fs domain subs_out rate).1,
          ∀ n, c ≠ Call.sleepCall n)
    ∧ (∀ (env : Env) (fs : FS) (subs_file out_file : String),
        ∀ c ∈ (run_gau env fs subs_file out_file rate).1, ∀ n, c ≠ Call.sleepCall n)
    ∧ (∀ (env : Env) (fs : FS) (merged_in final_out : String),
        ∀ c ∈ (filter_with_gf_uro_httpx env fs merged_in final_out rate).1,
          ∀ n, c ≠ Call.sleepCall n) := by
  have hng : ¬ rate > 0 := by omega
  refine ⟨fun seq => by rw [chunked, if_pos h], chunked_length_single,
    fun env fs a b => subfinder_to_httpx_rate_nonpos env fs a b rate hng,
    fun env fs a b => run_gau_rate_nonpos env fs a b rate hng,
    fun env fs a b => filter_rate_nonpos env fs a b rate hng,
    fun env fs a b => subfinder_to_httpx_no_sleep env fs a b rate hng,
    fun env fs a b => run_gau_no_sleep env fs a b rate hng,
    fun env fs a b => filter_no_sleep env fs a b rate hng⟩

/-- Witness for C10 at rate −2 with a concrete environment. -/
theorem nonpos_rate_equiv_zero_witness :
    chunked ["a", "b"] (-2) = [["a", "b"]]
    ∧ subfinder_to_httpx envEmptySubs fsNone "d" "subs.txt" (-2)
        = subfinder_to_httpx envEmptySubs fsNone "d" "subs.txt" 0
    ∧ run_gau envEmptySubs fsNone "subs.txt" "xss-gau.txt" (-2)
        = run_gau envEmptySubs fsNone "subs.txt" "xss-gau.txt" 0
    ∧ filter_with_gf_uro_httpx envEmptySubs fsNone "xss.txt" "xss.txt" (-2)
        = filter_with_gf_uro_httpx envEmptySubs fsNone "xss.txt" "xss.txt" 0 := by
  have h := nonpos_rate_equiv_zero (-2) (by decide)
  exact ⟨h.1 ["a", "b"], h.2.2.1 envEmptySubs fsNone "d" "subs.txt",
    h.2.2.2.1 envEmptySubs fsNone "subs.txt" "xss-gau.txt",
    h.2.2.2.2.1 envEmptySubs fsNone "xss.txt" "xss.txt"⟩
